import Mathlib

/-!
Verification of the Sudoku solver core (`solver.py`).

The solver works on a mutable 9x9 grid of strings (`list[list[str]]` in the
source): each cell holds a digit character `"1"`-`"9"` or the empty marker
`""`.  Mutation is modelled by explicit state passing: every function that
writes to the board returns the resulting board.  The recursion of
`solve_sudoku` is modelled with explicit fuel (`solveF`); one unit of fuel is
consumed per recursive call, and the development proves that any fuel larger
than the number of empty cells yields the same result, so `solve_sudoku b`
(defined with fuel `countEmpty b + 1`) is the value of the Python recursion.
-/

set_option maxHeartbeats 4000000
set_option maxRecDepth 8000

namespace SudokuSolver

/-- A Sudoku board as in `solver.py`: a list of rows, each a list of cell
strings.  A cell holds a digit character `"1"`-`"9"` or the empty marker `""`. -/
abbrev Board := List (List String)

/-- Reading `board[r][c]`.  Out-of-range reads default to the empty row/cell;
every use stays in range on well-formed 9x9 boards. -/
def getCell (b : Board) (r c : Nat) : String := (b.getD r []).getD c ""

/-- The in-place assignment `board[r][c] = d`. -/
def setCell (b : Board) (r c : Nat) (d : String) : Board :=
  b.set r ((b.getD r []).set c d)

/-- A well-formed 9x9 board: nine rows of nine cells each. -/
def Board.wf (b : Board) : Prop := b.length = 9 ∧ ∀ row ∈ b, row.length = 9

instance (b : Board) : Decidable (Board.wf b) :=
  inferInstanceAs (Decidable (_ ∧ _))

/-- All 81 cell coordinates in row-major order: the traversal order of the
nested loops `for i in range(9): for j in range(9)` of `find_empty`. -/
def rowMajor : List (Nat × Nat) :=
  (List.range 9).flatMap (fun r => (List.range 9).map (fun c => (r, c)))

/-- `find_empty` from `solver.py`: the first coordinate in row-major order
whose cell is the empty marker `''`, or `none` if the board is full. -/
def find_empty (b : Board) : Option (Nat × Nat) :=
  rowMajor.find? (fun p => getCell b p.1 p.2 == "")

/-- The number of empty cells of the board (the solver's termination measure). -/
def countEmpty (b : Board) : Nat :=
  rowMajor.countP (fun p => getCell b p.1 p.2 == "")

/-- The candidate digits `map(str, range(1, 10))`, i.e. `["1", ..., "9"]`. -/
def digits : List String := (List.range' 1 9).map (fun n => toString n)

/-- The first loop of `is_valid`: for each `i` in `range(9)`, the test
`board[row][i] == digit or board[i][col] == digit` returns `False` early.
The board is threaded through unchanged: the loop only reads it. -/
def checkRowCol (b : Board) (row col : Nat) (digit : String) :
    List Nat → Bool × Board
  | [] => (true, b)
  | i :: rest =>
    if getCell b row i == digit || getCell b i col == digit then (false, b)
    else checkRowCol b row col digit rest

/-- The 3x3-subgrid loop of `is_valid` over an explicit coordinate list,
returning `False` early on a hit; the board is threaded through unchanged. -/
def checkBox (b : Board) (digit : String) : List (Nat × Nat) → Bool × Board
  | [] => (true, b)
  | p :: ps =>
    if getCell b p.1 p.2 == digit then (false, b) else checkBox b digit ps

/-- The subgrid coordinates scanned by `is_valid`:
`range(top_row, top_row + 3) x range(top_col, top_col + 3)`. -/
def boxScan (top_row top_col : Nat) : List (Nat × Nat) :=
  (List.range' top_row 3).flatMap (fun i => (List.range' top_col 3).map (fun j => (i, j)))

/-- `is_valid` from `solver.py`, with the board state passed explicitly.
The row/column loop runs first; if it completes without a hit, the 3x3
subgrid with origin `(row // 3 * 3, col // 3 * 3)` is scanned. -/
def is_validS (b : Board) (row col : Nat) (digit : String) : Bool × Board :=
  let r1 := checkRowCol b row col digit (List.range 9)
  if r1.1 then checkBox r1.2 digit (boxScan (row / 3 * 3) (col / 3 * 3))
  else (false, r1.2)

/-- The boolean result of `is_valid`. -/
def is_valid (b : Board) (row col : Nat) (digit : String) : Bool :=
  (is_validS b row col digit).1

/-- The digit loop of `solve_sudoku`: try each remaining candidate digit at
cell `(r, c)`; place it if `is_valid` permits, recurse, and on a failed
recursive call undo the write (`board[row][col] = ''`) and continue. -/
def tryDigits (solve : Board → Bool × Board) (b : Board) (r c : Nat) :
    List String → Bool × Board
  | [] => (false, b)
  | d :: ds =>
    if is_valid b r c d then
      let p := solve (setCell b r c d)
      if p.1 then p
      else tryDigits solve (setCell p.2 r c "") r c ds
    else tryDigits solve b r c ds

/-- `solve_sudoku` from `solver.py` with explicit recursion fuel: locate the
first empty cell; if none, succeed; otherwise run the digit loop, recursing
with one unit of fuel less.  `solveF_fuel_congr` below shows that any fuel
of at least `countEmpty b + 1` gives the same result, so the fuel never runs
out on the actual recursion. -/
def solveF : Nat → Board → Bool × Board
  | 0, b => (false, b)
  | n + 1, b =>
    match find_empty b with
    | none => (true, b)
    | some (r, c) => tryDigits (solveF n) b r c digits

/-- `solve_sudoku`: the fuel `countEmpty b + 1` always suffices because each
recursive call strictly decreases the number of empty cells.  Returns the
success flag together with the final state of the board (which Python
mutates in place). -/
def solve_sudoku (b : Board) : Bool × Board := solveF (countEmpty b + 1) b

/-- `tryDigits`, additionally recording every board state produced by a write:
the state right after `board[row][col] = digit` and the state right after the
backtracking write `board[row][col] = ''`. -/
def tryDigitsT (solve : Board → (Bool × Board) × List Board) (b : Board)
    (r c : Nat) : List String → (Bool × Board) × List Board
  | [] => ((false, b), [])
  | d :: ds =>
    if is_valid b r c d then
      let b1 := setCell b r c d
      let p := solve b1
      if p.1.1 then (p.1, b1 :: p.2)
      else
        let b2 := setCell p.1.2 r c ""
        let q := tryDigitsT solve b2 r c ds
        (q.1, b1 :: (p.2 ++ b2 :: q.2))
    else tryDigitsT solve b r c ds

/-- `solve_sudoku` instrumented with the trace of every intermediate board
state reached during the search (one entry per write to the board). -/
def solveT : Nat → Board → (Bool × Board) × List Board
  | 0, b => ((false, b), [])
  | n + 1, b =>
    match find_empty b with
    | none => ((true, b), [])
    | some (r, c) => tryDigitsT (solveT n) b r c digits

/-- Two coordinates lie in a common unit: same row, same column, or same 3x3
box (box coordinates are the component-wise quotients by 3). -/
def sameUnit (p q : Nat × Nat) : Prop :=
  p.1 = q.1 ∨ p.2 = q.2 ∨ (p.1 / 3 = q.1 / 3 ∧ p.2 / 3 = q.2 / 3)

instance (p q : Nat × Nat) : Decidable (sameUnit p q) :=
  inferInstanceAs (Decidable (_ ∨ _))

/-- The filled cells form a partial assignment consistent with the Sudoku
rules: no two distinct cells of a common unit hold the same non-empty value. -/
def consistent (b : Board) : Prop :=
  ∀ p ∈ rowMajor, ∀ q ∈ rowMajor, p ≠ q → sameUnit p q →
    getCell b p.1 p.2 ≠ "" → getCell b p.1 p.2 ≠ getCell b q.1 q.2

/-- `b'` agrees with `b` on every cell that is filled in `b` (all originally
given digits are still in place). -/
def extendsB (b b' : Board) : Prop :=
  ∀ r, r < 9 → ∀ c, c < 9 → getCell b r c ≠ "" → getCell b' r c = getCell b r c

/-- Every cell is either empty or holds a digit character `"1"`-`"9"`. -/
def cellsOk (b : Board) : Prop :=
  ∀ r, r < 9 → ∀ c, c < 9 → getCell b r c = "" ∨ getCell b r c ∈ digits

/-- No cell of the 9x9 grid holds the empty marker. -/
def fullB (b : Board) : Prop := ∀ r, r < 9 → ∀ c, c < 9 → getCell b r c ≠ ""

/-- Row `r` contains digit `d` exactly once. -/
def rowHasOnce (b : Board) (r : Nat) (d : String) : Prop :=
  (List.range 9).countP (fun c => getCell b r c == d) = 1

/-- Column `c` contains digit `d` exactly once. -/
def colHasOnce (b : Board) (c : Nat) (d : String) : Prop :=
  (List.range 9).countP (fun r => getCell b r c == d) = 1

/-- The cells of the 3x3 box with box coordinates `(i, j)`. -/
def boxCells (i j : Nat) : List (Nat × Nat) := boxScan (i * 3) (j * 3)

/-- The box with box coordinates `(i, j)` contains digit `d` exactly once. -/
def boxHasOnce (b : Board) (i j : Nat) (d : String) : Prop :=
  (boxCells i j).countP (fun p => getCell b p.1 p.2 == d) = 1

/-- A completely solved board: every row, every column and every 3x3 box
contains each digit `"1"`-`"9"` exactly once. -/
def solvedBoard (b : Board) : Prop :=
  ∀ d ∈ digits,
    (∀ r, r < 9 → rowHasOnce b r d) ∧ (∀ c, c < 9 → colHasOnce b c d) ∧
    (∀ i, i < 3 → ∀ j, j < 3 → boxHasOnce b i j d)

/-- The validity check described by claim C3, following the claim's words:
no cell *other than* `(row, col)` in the same row, in the same column, or in
the 3x3 box with origin `(row // 3 * 3, col // 3 * 3)` holds `digit`. -/
def specValid (b : Board) (row col : Nat) (digit : String) : Prop :=
  (∀ i, i < 9 → (row, i) ≠ (row, col) → getCell b row i ≠ digit) ∧
  (∀ i, i < 9 → (i, col) ≠ (row, col) → getCell b i col ≠ digit) ∧
  (∀ i, i < 9 → ∀ j, j < 9 →
    (row / 3 * 3 ≤ i ∧ i < row / 3 * 3 + 3 ∧ col / 3 * 3 ≤ j ∧
      j < col / 3 * 3 + 3 ∧ (i, j) ≠ (row, col)) →
    getCell b i j ≠ digit)

instance (b : Board) : Decidable (consistent b) := by
  unfold consistent
  infer_instance

instance (b b' : Board) : Decidable (extendsB b b') := by
  unfold extendsB
  infer_instance

instance (b : Board) : Decidable (cellsOk b) := by
  unfold cellsOk
  infer_instance

instance (b : Board) : Decidable (fullB b) := by
  unfold fullB
  infer_instance

instance (b : Board) (r : Nat) (d : String) : Decidable (rowHasOnce b r d) := by
  unfold rowHasOnce
  infer_instance

instance (b : Board) (c : Nat) (d : String) : Decidable (colHasOnce b c d) := by
  unfold colHasOnce
  infer_instance

instance (b : Board) (i j : Nat) (d : String) : Decidable (boxHasOnce b i j d) := by
  unfold boxHasOnce
  infer_instance

instance (b : Board) : Decidable (solvedBoard b) := by
  unfold solvedBoard
  infer_instance

instance (b : Board) (row col : Nat) (digit : String) :
    Decidable (specValid b row col digit) := by
  unfold specValid
  refine @instDecidableAnd _ _ ?_ (@instDecidableAnd _ _ ?_ ?_) <;>
    infer_instance

/-- The coordinates of row `r`. -/
def rowCells (r : Nat) : List (Nat × Nat) := (List.range 9).map (fun c => (r, c))

/-- The coordinates of column `c`. -/
def colCells (c : Nat) : List (Nat × Nat) := (List.range 9).map (fun r => (r, c))

/-- A fully solved concrete board (the cyclic-shift construction). -/
def okBoard : Board :=
  [["1", "2", "3", "4", "5", "6", "7", "8", "9"],
   ["4", "5", "6", "7", "8", "9", "1", "2", "3"],
   ["7", "8", "9", "1", "2", "3", "4", "5", "6"],
   ["2", "3", "4", "5", "6", "7", "8", "9", "1"],
   ["5", "6", "7", "8", "9", "1", "2", "3", "4"],
   ["8", "9", "1", "2", "3", "4", "5", "6", "7"],
   ["3", "4", "5", "6", "7", "8", "9", "1", "2"],
   ["6", "7", "8", "9", "1", "2", "3", "4", "5"],
   ["9", "1", "2", "3", "4", "5", "6", "7", "8"]]

/-- `okBoard` with its last cell emptied: a consistent board with a unique
obvious completion. -/
def okBoard88 : Board :=
  [["1", "2", "3", "4", "5", "6", "7", "8", "9"],
   ["4", "5", "6", "7", "8", "9", "1", "2", "3"],
   ["7", "8", "9", "1", "2", "3", "4", "5", "6"],
   ["2", "3", "4", "5", "6", "7", "8", "9", "1"],
   ["5", "6", "7", "8", "9", "1", "2", "3", "4"],
   ["8", "9", "1", "2", "3", "4", "5", "6", "7"],
   ["3", "4", "5", "6", "7", "8", "9", "1", "2"],
   ["6", "7", "8", "9", "1", "2", "3", "4", "5"],
   ["9", "1", "2", "3", "4", "5", "6", "7", ""]]

/-- `okBoard` with the values of cells `(0,0)` and `(1,0)` swapped (creating a
duplicated given in row 0 and in row 1) and cell `(8,8)` emptied: a board with
inconsistent givens, no valid completion, and one empty cell the solver can
nevertheless fill. -/
def swappedBoard : Board :=
  [["4", "2", "3", "4", "5", "6", "7", "8", "9"],
   ["1", "5", "6", "7", "8", "9", "1", "2", "3"],
   ["7", "8", "9", "1", "2", "3", "4", "5", "6"],
   ["2", "3", "4", "5", "6", "7", "8", "9", "1"],
   ["5", "6", "7", "8", "9", "1", "2", "3", "4"],
   ["8", "9", "1", "2", "3", "4", "5", "6", "7"],
   ["3", "4", "5", "6", "7", "8", "9", "1", "2"],
   ["6", "7", "8", "9", "1", "2", "3", "4", "5"],
   ["9", "1", "2", "3", "4", "5", "6", "7", ""]]

/-- A board with consistent digit givens and no valid completion: row 0 forces
cell `(0, 8)` to be `"9"`, which collides with the `"9"` at `(1, 8)`. -/
def blockedBoard : Board :=
  [["1", "2", "3", "4", "5", "6", "7", "8", ""],
   ["", "", "", "", "", "", "", "", "9"],
   ["", "", "", "", "", "", "", "", ""],
   ["", "", "", "", "", "", "", "", ""],
   ["", "", "", "", "", "", "", "", ""],
   ["", "", "", "", "", "", "", "", ""],
   ["", "", "", "", "", "", "", "", ""],
   ["", "", "", "", "", "", "", "", ""],
   ["", "", "", "", "", "", "", "", ""]]

/-- A full board violating every Sudoku constraint. -/
def allOnes : Board := List.replicate 9 (List.replicate 9 "1")

/-- A board whose single given is a `"1"` at `(0, 0)`: used to refute claim C3
as stated (the code's row scan tests the cell `(0, 0)` itself). -/
def selfBoard : Board :=
  [["1", "", "", "", "", "", "", "", ""],
   ["", "", "", "", "", "", "", "", ""],
   ["", "", "", "", "", "", "", "", ""],
   ["", "", "", "", "", "", "", "", ""],
   ["", "", "", "", "", "", "", "", ""],
   ["", "", "", "", "", "", "", "", ""],
   ["", "", "", "", "", "", "", "", ""],
   ["", "", "", "", "", "", "", "", ""],
   ["", "", "", "", "", "", "", "", ""]]

/-! ### List utilities -/

theorem find_split {α : Type} (p : α → Bool) :
    ∀ (l : List α) (a : α), l.find? p = some a →
      ∃ l1 l2, l = l1 ++ a :: l2 ∧ p a = true ∧ ∀ x ∈ l1, p x = false := by
  intro l
  induction l with
  | nil => intro a h; simp [List.find?] at h
  | cons x xs ih =>
    intro a h
    by_cases hx : p x
    · rw [List.find?_cons_of_pos _ hx] at h
      cases h
      exact ⟨[], xs, rfl, hx, by simp⟩
    · rw [List.find?_cons_of_neg _ hx] at h
      obtain ⟨l1, l2, heq, hpa, hl1⟩ := ih a h
      refine ⟨x :: l1, l2, by rw [heq, List.cons_append], hpa, ?_⟩
      intro y hy
      rcases List.mem_cons.1 hy with rfl | hy'
      · exact Bool.eq_false_iff.2 hx
      · exact hl1 y hy'

theorem two_le_countP {α : Type} (p : α → Bool) (l : List α) (a b : α)
    (hab : a ≠ b) (ha : a ∈ l) (hb : b ∈ l) (hpa : p a = true)
    (hpb : p b = true) : 2 ≤ l.countP p := by
  obtain ⟨s, t, rfl⟩ := List.append_of_mem ha
  rw [List.countP_append, List.countP_cons_of_pos _ _ hpa]
  rcases List.mem_append.1 hb with hbs | hbt
  · have h1 : 0 < List.countP p s := List.countP_pos_iff.mpr ⟨b, hbs, hpb⟩
    omega
  · have hbt' : b ∈ t := by
      rcases List.mem_cons.1 hbt with heq | h
      · exact absurd heq.symm hab
      · exact h
    have h1 : 0 < List.countP p t := List.countP_pos_iff.mpr ⟨b, hbt', hpb⟩
    omega

theorem countP_flip {α : Type} (p q : α → Bool) (l : List α) (a : α)
    (hmem : a ∈ l) (hnd : l.Nodup) (hpa : p a = true) (hqa : q a = false)
    (hcong : ∀ x ∈ l, x ≠ a → q x = p x) :
    l.countP q + 1 = l.countP p := by
  obtain ⟨s, t, rfl⟩ := List.append_of_mem hmem
  rw [List.nodup_append] at hnd
  have has : a ∉ s := fun hs => hnd.2.2 hs (List.mem_cons_self a t)
  have hat : a ∉ t := fun ht => (List.nodup_cons.1 hnd.2.1).1 ht
  have hs : s.countP q = s.countP p := by
    refine List.countP_congr ?_
    intro x hx
    have hxa : x ≠ a := fun h => has (h ▸ hx)
    rw [hcong x (List.mem_append_left _ hx) hxa]
  have ht : t.countP q = t.countP p := by
    refine List.countP_congr ?_
    intro x hx
    have hxa : x ≠ a := fun h => hat (h ▸ hx)
    rw [hcong x (List.mem_append_right _ (List.mem_cons_of_mem a hx)) hxa]
  rw [List.countP_append, List.countP_append,
    List.countP_cons_of_pos _ _ hpa, List.countP_cons_of_neg _ _ (by simp [hqa]),
    hs, ht]
  omega

/-! ### Facts about `digits` and `rowMajor` -/

theorem digits_eq : digits = ["1", "2", "3", "4", "5", "6", "7", "8", "9"] := by
  decide

theorem digits_ne_empty : ∀ d ∈ digits, d ≠ "" := by decide

theorem digits_nodup : digits.Nodup := by decide

theorem digits_length : digits.length = 9 := by decide

theorem mem_rowMajor (r c : Nat) : (r, c) ∈ rowMajor ↔ r < 9 ∧ c < 9 := by
  simp only [rowMajor, List.mem_flatMap, List.mem_map, List.mem_range,
    Prod.mk.injEq]
  constructor
  · rintro ⟨x, hx, y, hy, rfl, rfl⟩
    exact ⟨hx, hy⟩
  · rintro ⟨hr, hc⟩
    exact ⟨r, hr, c, hc, rfl, rfl⟩

theorem mem_rowMajor_pair (p : Nat × Nat) : p ∈ rowMajor ↔ p.1 < 9 ∧ p.2 < 9 := by
  cases p with
  | mk r c => exact mem_rowMajor r c

theorem rowMajor_nodup : rowMajor.Nodup := by decide

theorem rowMajor_length : rowMajor.length = 81 := by decide

theorem rowMajor_pairwise :
    rowMajor.Pairwise (fun p q => p.1 < q.1 ∨ (p.1 = q.1 ∧ p.2 < q.2)) := by
  decide

/-! ### Reading and writing cells -/

theorem list_set_self {α : Type} (l : List α) (i : Nat) (h : i < l.length) :
    l.set i l[i] = l := by
  refine List.ext_getElem (by rw [List.length_set]) ?_
  intro j h1 h2
  by_cases hij : i = j
  · subst hij; rw [List.getElem_set_self]
  · rw [List.getElem_set_ne hij]

theorem getD_set_self {α : Type} (l : List α) (i : Nat) (a d : α)
    (h : i < l.length) : (l.set i a).getD i d = a := by
  rw [List.getD_eq_getElem?_getD, List.getElem?_set]
  simp [h]

theorem getD_set_ne {α : Type} (l : List α) (i j : Nat) (a d : α) (h : i ≠ j) :
    (l.set i a).getD j d = l.getD j d := by
  rw [List.getD_eq_getElem?_getD, List.getElem?_set_ne h,
    ← List.getD_eq_getElem?_getD]

theorem getCell_setCell_ne (b : Board) (r c r' c' : Nat) (d : String)
    (h : ¬(r' = r ∧ c' = c)) :
    getCell (setCell b r c d) r' c' = getCell b r' c' := by
  unfold getCell setCell
  by_cases hr : r = r'
  · subst hr
    have hc : c ≠ c' := fun hc => h ⟨rfl, hc.symm⟩
    by_cases hlen : r < b.length
    · rw [getD_set_self _ _ _ _ hlen, getD_set_ne _ _ _ _ _ hc]
    · rw [List.set_eq_of_length_le (Nat.le_of_not_lt hlen)]
  · rw [getD_set_ne _ _ _ _ _ hr]

theorem getCell_setCell_self (b : Board) (r c : Nat) (d : String)
    (hwf : Board.wf b) (hr : r < 9) (hc : c < 9) :
    getCell (setCell b r c d) r c = d := by
  unfold getCell setCell
  have hlen : r < b.length := by rw [hwf.1]; exact hr
  have hrow : (b.getD r []).length = 9 := by
    rw [List.getD_eq_getElem (l := b) (d := []) hlen]
    exact hwf.2 _ (List.getElem_mem hlen)
  rw [getD_set_self _ _ _ _ hlen, getD_set_self _ _ _ _ (by omega)]

theorem wf_setCell (b : Board) (r c : Nat) (d : String) (hwf : Board.wf b) :
    Board.wf (setCell b r c d) := by
  by_cases hlen : r < b.length
  · constructor
    · rw [setCell, List.length_set]; exact hwf.1
    · intro row hrow
      rcases List.mem_or_eq_of_mem_set hrow with hmem | rfl
      · exact hwf.2 _ hmem
      · rw [List.length_set, List.getD_eq_getElem (l := b) (d := []) hlen]
        exact hwf.2 _ (List.getElem_mem hlen)
  · rw [setCell, List.set_eq_of_length_le (Nat.le_of_not_lt hlen)]
    exact hwf

theorem setCell_setCell (b : Board) (r c : Nat) (d e : String) :
    setCell (setCell b r c d) r c e = setCell b r c e := by
  by_cases hlen : r < b.length
  · unfold setCell
    rw [List.set_set]
    congr 1
    rw [getD_set_self _ _ _ _ hlen, List.set_set]
  · have h1 : setCell b r c d = b := by
      rw [setCell, List.set_eq_of_length_le (Nat.le_of_not_lt hlen)]
    rw [h1]

theorem setCell_restore (b : Board) (r c : Nat) (h : getCell b r c = "") :
    setCell b r c "" = b := by
  unfold setCell
  unfold getCell at h
  by_cases hlen : r < b.length
  · by_cases hcl : c < (b.getD r []).length
    · have hc : (b.getD r [])[c] = "" := by
        rw [← List.getD_eq_getElem (l := b.getD r []) (d := "") hcl]
        exact h
      have hrow : (b.getD r []).set c "" = b.getD r [] := by
        conv_lhs => rw [← hc]
        exact list_set_self _ _ hcl
      rw [hrow, List.getD_eq_getElem (l := b) (d := []) hlen,
        list_set_self _ _ hlen]
    · rw [List.set_eq_of_length_le (α := String) (Nat.le_of_not_lt hcl),
        List.getD_eq_getElem (l := b) (d := []) hlen, list_set_self _ _ hlen]
  · rw [List.set_eq_of_length_le (Nat.le_of_not_lt hlen)]

/-! ### The `is_valid` loops -/

theorem checkRowCol_board (b : Board) (row col : Nat) (d : String) :
    ∀ l, (checkRowCol b row col d l).2 = b := by
  intro l
  induction l with
  | nil => rfl
  | cons i rest ih =>
    unfold checkRowCol
    by_cases hi : (getCell b row i == d || getCell b i col == d) = true
    · rw [if_pos hi]
    · rw [if_neg hi]; exact ih

theorem checkRowCol_true_iff (b : Board) (row col : Nat) (d : String) :
    ∀ l, (checkRowCol b row col d l).1 = true ↔
      ∀ i ∈ l, getCell b row i ≠ d ∧ getCell b i col ≠ d := by
  intro l
  induction l with
  | nil => simp [checkRowCol]
  | cons i rest ih =>
    unfold checkRowCol
    by_cases hi : (getCell b row i == d || getCell b i col == d) = true
    · rw [if_pos hi]
      simp only [Bool.or_eq_true, beq_iff_eq] at hi
      refine iff_of_false (by simp) ?_
      intro h
      rcases hi with h1 | h1
      · exact (h i (List.mem_cons_self i rest)).1 h1
      · exact (h i (List.mem_cons_self i rest)).2 h1
    · rw [if_neg hi]
      simp only [Bool.or_eq_true, beq_iff_eq, not_or] at hi
      rw [ih]
      constructor
      · intro h j hj
        rcases List.mem_cons.1 hj with rfl | hj'
        · exact ⟨hi.1, hi.2⟩
        · exact h j hj'
      · intro h j hj
        exact h j (List.mem_cons_of_mem _ hj)

theorem checkBox_board (b : Board) (d : String) :
    ∀ l, (checkBox b d l).2 = b := by
  intro l
  induction l with
  | nil => rfl
  | cons p ps ih =>
    unfold checkBox
    by_cases hp : (getCell b p.1 p.2 == d) = true
    · rw [if_pos hp]
    · rw [if_neg hp]; exact ih

theorem checkBox_true_iff (b : Board) (d : String) :
    ∀ l, (checkBox b d l).1 = true ↔ ∀ p ∈ l, getCell b p.1 p.2 ≠ d := by
  intro l
  induction l with
  | nil => simp [checkBox]
  | cons p ps ih =>
    unfold checkBox
    by_cases hp : (getCell b p.1 p.2 == d) = true
    · rw [if_pos hp]
      simp only [beq_iff_eq] at hp
      refine iff_of_false (by simp) ?_
      intro h
      exact h p (List.mem_cons_self p ps) hp
    · rw [if_neg hp]
      simp only [beq_iff_eq] at hp
      rw [ih]
      constructor
      · intro h q hq
        rcases List.mem_cons.1 hq with rfl | hq'
        · exact hp
        · exact h q hq'
      · intro h q hq
        exact h q (List.mem_cons_of_mem _ hq)


theorem is_valid_iff (b : Board) (row col : Nat) (d : String) :
    is_valid b row col d = true ↔
      (∀ i, i < 9 → getCell b row i ≠ d ∧ getCell b i col ≠ d) ∧
      ∀ p ∈ boxScan (row / 3 * 3) (col / 3 * 3), getCell b p.1 p.2 ≠ d := by
  simp only [is_valid, is_validS]
  by_cases h : (checkRowCol b row col d (List.range 9)).1 = true
  · rw [if_pos h, checkRowCol_board, checkBox_true_iff]
    have h2 := (checkRowCol_true_iff b row col d (List.range 9)).1 h
    constructor
    · intro hbox
      exact ⟨fun i hi => h2 i (List.mem_range.2 hi), hbox⟩
    · intro hall
      exact hall.2
  · rw [if_neg h]
    refine iff_of_false (by simp) ?_
    intro hall
    apply h
    rw [checkRowCol_true_iff]
    intro i hi
    exact hall.1 i (List.mem_range.1 hi)

/-! ### `find_empty` and `countEmpty` -/

theorem find_empty_none_iff (b : Board) :
    find_empty b = none ↔ ∀ r, r < 9 → ∀ c, c < 9 → getCell b r c ≠ "" := by
  unfold find_empty
  rw [List.find?_eq_none]
  constructor
  · intro h r hr c hc
    have := h (r, c) ((mem_rowMajor r c).2 ⟨hr, hc⟩)
    simpa using this
  · intro h p hp
    obtain ⟨h1, h2⟩ := (mem_rowMajor_pair p).1 hp
    simpa using h p.1 h1 p.2 h2

theorem find_empty_some (b : Board) (r c : Nat)
    (h : find_empty b = some (r, c)) :
    r < 9 ∧ c < 9 ∧ getCell b r c = "" := by
  have hmem := List.mem_of_find?_eq_some h
  have hp := List.find?_some h
  obtain ⟨h1, h2⟩ := (mem_rowMajor r c).1 hmem
  simp only [beq_iff_eq] at hp
  exact ⟨h1, h2, hp⟩

theorem find_empty_first (b : Board) (r c : Nat)
    (h : find_empty b = some (r, c)) :
    ∀ x y, x < 9 → y < 9 → (x < r ∨ (x = r ∧ y < c)) → getCell b x y ≠ "" := by
  obtain ⟨l1, l2, hsplit, hpa, hl1⟩ := find_split _ _ _ h
  intro x y hx hy hlt
  have hmem : (x, y) ∈ rowMajor := (mem_rowMajor x y).2 ⟨hx, hy⟩
  rw [hsplit] at hmem
  rcases List.mem_append.1 hmem with h1 | h1
  · have := hl1 _ h1
    simpa using this
  · rcases List.mem_cons.1 h1 with heq | h2
    · simp only [Prod.mk.injEq] at heq
      obtain ⟨rfl, rfl⟩ := heq
      omega
    · exfalso
      have hpw := rowMajor_pairwise
      rw [hsplit, List.pairwise_append] at hpw
      have h4 := (List.pairwise_cons.1 hpw.2.1).1 _ h2
      simp only at h4
      omega

theorem countEmpty_pos (b : Board) (r c : Nat) (hr : r < 9) (hc : c < 9)
    (h : getCell b r c = "") : 0 < countEmpty b :=
  List.countP_pos_iff.mpr ⟨(r, c), (mem_rowMajor r c).2 ⟨hr, hc⟩, by simp [h]⟩

theorem countEmpty_setCell (b : Board) (r c : Nat) (d : String)
    (hwf : Board.wf b) (hr : r < 9) (hc : c < 9) (hempty : getCell b r c = "")
    (hd : d ≠ "") : countEmpty (setCell b r c d) + 1 = countEmpty b := by
  unfold countEmpty
  refine countP_flip _ _ rowMajor (r, c) ((mem_rowMajor r c).2 ⟨hr, hc⟩)
    rowMajor_nodup (by simp [hempty]) (by
      simp [getCell_setCell_self b r c d hwf hr hc, hd]) ?_
  intro x hx hxne
  have hne : ¬(x.1 = r ∧ x.2 = c) := by
    intro ⟨ha, hb⟩
    apply hxne
    cases x
    simp_all
  rw [getCell_setCell_ne b r c x.1 x.2 d hne]

theorem countEmpty_zero_iff (b : Board) :
    countEmpty b = 0 ↔ find_empty b = none := by
  unfold countEmpty find_empty
  rw [List.countP_eq_zero, List.find?_eq_none]

theorem countEmpty_le (b : Board) : countEmpty b ≤ 81 := by
  have := List.countP_le_length (fun p => getCell b p.1 p.2 == "")
    (l := rowMajor)
  rw [rowMajor_length] at this
  exact this

/-! ### Behaviour of the backtracking search -/

theorem extendsB_refl (b : Board) : extendsB b b := fun _ _ _ _ _ => rfl

theorem extendsB_trans {a b c : Board} (h1 : extendsB a b) (h2 : extendsB b c) :
    extendsB a c := by
  intro r hr c' hc hne
  rw [← h1 r hr c' hc hne]
  apply h2 r hr c' hc
  rw [h1 r hr c' hc hne]
  exact hne

theorem extendsB_setCell_empty (b : Board) (r c : Nat) (d : String)
    (hempty : getCell b r c = "") : extendsB b (setCell b r c d) := by
  intro x hx y hy hne
  apply getCell_setCell_ne
  intro ⟨h1, h2⟩
  subst h1; subst h2
  exact hne hempty

theorem tryDigits_false_board (solve : Board → Bool × Board)
    (hs : ∀ b', (solve b').1 = false → (solve b').2 = b')
    (b : Board) (r c : Nat) (hempty : getCell b r c = "") :
    ∀ ds, (tryDigits solve b r c ds).1 = false →
      (tryDigits solve b r c ds).2 = b := by
  intro ds
  induction ds with
  | nil => intro _; rfl
  | cons d ds ih =>
    simp only [tryDigits]
    by_cases hv : is_valid b r c d = true
    · rw [if_pos hv]
      by_cases hp : (solve (setCell b r c d)).1 = true
      · rw [if_pos hp]
        intro h
        rw [h] at hp
        cases hp
      · rw [if_neg hp]
        have hres : (solve (setCell b r c d)).2 = setCell b r c d :=
          hs _ (Bool.eq_false_iff.2 hp)
        rw [hres, setCell_setCell, setCell_restore b r c hempty]
        exact ih
    · rw [if_neg hv]
      exact ih

theorem solveF_false_board :
    ∀ n b, (solveF n b).1 = false → (solveF n b).2 = b := by
  intro n
  induction n with
  | zero => intro b _; rfl
  | succ n ih =>
    intro b
    cases hfe : find_empty b with
    | none => simp [solveF, hfe]
    | some rc =>
      obtain ⟨r, c⟩ := rc
      simp only [solveF, hfe]
      exact tryDigits_false_board (solveF n) ih b r c
        (find_empty_some b r c hfe).2.2 digits

theorem tryDigits_extends (solve : Board → Bool × Board)
    (hsE : ∀ b', extendsB b' (solve b').2)
    (hsR : ∀ b', (solve b').1 = false → (solve b').2 = b')
    (b : Board) (r c : Nat) (hempty : getCell b r c = "") :
    ∀ ds, extendsB b (tryDigits solve b r c ds).2 := by
  intro ds
  induction ds with
  | nil => exact extendsB_refl b
  | cons d ds ih =>
    simp only [tryDigits]
    by_cases hv : is_valid b r c d = true
    · rw [if_pos hv]
      by_cases hp : (solve (setCell b r c d)).1 = true
      · rw [if_pos hp]
        exact extendsB_trans (extendsB_setCell_empty b r c d hempty)
          (hsE (setCell b r c d))
      · rw [if_neg hp]
        have hres : (solve (setCell b r c d)).2 = setCell b r c d :=
          hsR _ (Bool.eq_false_iff.2 hp)
        rw [hres, setCell_setCell, setCell_restore b r c hempty]
        exact ih
    · rw [if_neg hv]
      exact ih

theorem solveF_extends : ∀ n b, extendsB b (solveF n b).2 := by
  intro n
  induction n with
  | zero => intro b; exact extendsB_refl b
  | succ n ih =>
    intro b
    cases hfe : find_empty b with
    | none => simp only [solveF, hfe]; exact extendsB_refl b
    | some rc =>
      obtain ⟨r, c⟩ := rc
      simp only [solveF, hfe]
      exact tryDigits_extends (solveF n) ih (solveF_false_board n) b r c
        (find_empty_some b r c hfe).2.2 digits

theorem solveF_congr :
    ∀ k b, Board.wf b → countEmpty b = k →
      ∀ n m, k ≤ n → k ≤ m → solveF (n + 1) b = solveF (m + 1) b := by
  intro k
  induction k using Nat.strong_induction_on with
  | _ k ihk =>
    intro b hwf hk n m hn hm
    cases hfe : find_empty b with
    | none => simp only [solveF, hfe]
    | some rc =>
      obtain ⟨r, c⟩ := rc
      simp only [solveF, hfe]
      obtain ⟨hr, hc, hempty⟩ := find_empty_some b r c hfe
      have hkpos : 0 < k := hk ▸ countEmpty_pos b r c hr hc hempty
      have inner : ∀ ds, (∀ x ∈ ds, x ∈ digits) →
          tryDigits (solveF n) b r c ds = tryDigits (solveF m) b r c ds := by
        intro ds
        induction ds with
        | nil => intro _; rfl
        | cons d ds ihds =>
          intro hsub
          simp only [tryDigits]
          by_cases hv : is_valid b r c d = true
          · rw [if_pos hv, if_pos hv]
            have hd : d ≠ "" :=
              digits_ne_empty d (hsub d (List.mem_cons_self d ds))
            have hce : countEmpty (setCell b r c d) = k - 1 := by
              have := countEmpty_setCell b r c d hwf hr hc hempty hd
              omega
            have hwf1 := wf_setCell b r c d hwf
            obtain ⟨n', rfl⟩ : ∃ n', n = n' + 1 := ⟨n - 1, by omega⟩
            obtain ⟨m', rfl⟩ : ∃ m', m = m' + 1 := ⟨m - 1, by omega⟩
            have heq : solveF (n' + 1) (setCell b r c d)
                = solveF (m' + 1) (setCell b r c d) :=
              ihk (k - 1) (by omega) _ hwf1 hce n' m' (by omega) (by omega)
            rw [heq]
            by_cases hp : (solveF (m' + 1) (setCell b r c d)).1 = true
            · rw [if_pos hp, if_pos hp]
            · rw [if_neg hp, if_neg hp]
              have hres : (solveF (m' + 1) (setCell b r c d)).2
                  = setCell b r c d :=
                solveF_false_board (m' + 1) _ (Bool.eq_false_iff.2 hp)
              rw [hres, setCell_setCell, setCell_restore b r c hempty]
              exact ihds (fun x hx => hsub x (List.mem_cons_of_mem d hx))
          · rw [if_neg hv, if_neg hv]
            exact ihds (fun x hx => hsub x (List.mem_cons_of_mem d hx))
      exact inner digits (fun x hx => hx)

/-! ### Units, permutations and the solved-board predicate -/

theorem sameUnit_symm {p q : Nat × Nat} (h : sameUnit p q) : sameUnit q p := by
  rcases h with h | h | h
  · exact Or.inl h.symm
  · exact Or.inr (Or.inl h.symm)
  · exact Or.inr (Or.inr ⟨h.1.symm, h.2.symm⟩)

theorem mem_boxScan (a c : Nat) (p : Nat × Nat) :
    p ∈ boxScan a c ↔ a ≤ p.1 ∧ p.1 < a + 3 ∧ c ≤ p.2 ∧ p.2 < c + 3 := by
  cases p with
  | mk x y =>
    simp only [boxScan, List.mem_flatMap, List.mem_map, List.mem_range'_1,
      Prod.mk.injEq]
    constructor
    · rintro ⟨i, hi, j, hj, rfl, rfl⟩
      exact ⟨hi.1, hi.2, hj.1, hj.2⟩
    · rintro ⟨h1, h2, h3, h4⟩
      exact ⟨x, ⟨h1, h2⟩, y, ⟨h3, h4⟩, rfl, rfl⟩

theorem rowCells_facts : ∀ r, r < 9 → (rowCells r).Nodup ∧
    (rowCells r).length = 9 ∧ (∀ p ∈ rowCells r, p ∈ rowMajor) ∧
    (∀ p ∈ rowCells r, ∀ q ∈ rowCells r, sameUnit p q) := by decide

theorem colCells_facts : ∀ c, c < 9 → (colCells c).Nodup ∧
    (colCells c).length = 9 ∧ (∀ p ∈ colCells c, p ∈ rowMajor) ∧
    (∀ p ∈ colCells c, ∀ q ∈ colCells c, sameUnit p q) := by decide

theorem boxCells_nodup : ∀ i, i < 3 → ∀ j, j < 3 → (boxCells i j).Nodup := by
  decide

theorem boxCells_length : ∀ i, i < 3 → ∀ j, j < 3 →
    (boxCells i j).length = 9 := by decide

theorem boxCells_mem : ∀ i, i < 3 → ∀ j, j < 3 →
    ∀ p ∈ boxCells i j, p ∈ rowMajor := by decide

theorem boxCells_unit : ∀ i, i < 3 → ∀ j, j < 3 →
    ∀ p ∈ boxCells i j, ∀ q ∈ boxCells i j, sameUnit p q := by decide

theorem unit_count (b : Board) (u : List (Nat × Nat)) (d : String) :
    (u.map (fun p => getCell b p.1 p.2)).count d
      = u.countP (fun p => getCell b p.1 p.2 == d) := by
  rw [List.count_eq_countP, List.countP_map]
  rfl

theorem rowHasOnce_iff (b : Board) (r : Nat) (d : String) :
    rowHasOnce b r d ↔
      ((rowCells r).map (fun p => getCell b p.1 p.2)).count d = 1 := by
  unfold rowHasOnce rowCells
  rw [List.count_eq_countP, List.countP_map, List.countP_map]
  exact Iff.rfl

theorem colHasOnce_iff (b : Board) (c : Nat) (d : String) :
    colHasOnce b c d ↔
      ((colCells c).map (fun p => getCell b p.1 p.2)).count d = 1 := by
  unfold colHasOnce colCells
  rw [List.count_eq_countP, List.countP_map, List.countP_map]
  exact Iff.rfl

theorem boxHasOnce_iff (b : Board) (i j : Nat) (d : String) :
    boxHasOnce b i j d ↔
      ((boxCells i j).map (fun p => getCell b p.1 p.2)).count d = 1 := by
  unfold boxHasOnce
  rw [unit_count]

theorem perm_digits_of_count (vals : List String) (hlen : vals.length = 9)
    (h : ∀ d ∈ digits, vals.count d = 1) : List.Perm digits vals := by
  have hsub : List.Subperm digits vals := by
    rw [List.subperm_ext_iff]
    intro d hd
    rw [List.count_eq_one_of_mem digits_nodup hd, h d hd]
  exact hsub.perm_of_length_le (by rw [hlen, digits_length])

theorem count_of_perm_digits (vals : List String)
    (h : List.Perm digits vals) : ∀ d ∈ digits, vals.count d = 1 := by
  intro d hd
  rw [← List.Perm.count_eq h d, List.count_eq_one_of_mem digits_nodup hd]

theorem perm_digits_of_nodup_sub (vals : List String) (hlen : vals.length = 9)
    (hnd : vals.Nodup) (hsub : ∀ v ∈ vals, v ∈ digits) :
    List.Perm digits vals := by
  have h : List.Subperm vals digits := hnd.subperm hsub
  exact (h.perm_of_length_le (by rw [hlen, digits_length])).symm

theorem solvedBoard_cell_mem (F : Board) (hs : solvedBoard F) (r c : Nat)
    (hr : r < 9) (hc : c < 9) : getCell F r c ∈ digits := by
  have h1 : ∀ d ∈ digits,
      ((rowCells r).map (fun p => getCell F p.1 p.2)).count d = 1 :=
    fun d hd => (rowHasOnce_iff F r d).1 ((hs d hd).1 r hr)
  have hperm := perm_digits_of_count _ (by simp [rowCells]) h1
  have hmem : getCell F r c ∈ (rowCells r).map (fun p => getCell F p.1 p.2) :=
    List.mem_map.2 ⟨(r, c), List.mem_map.2 ⟨c, List.mem_range.2 hc, rfl⟩, rfl⟩
  exact (hperm.mem_iff).2 hmem

theorem unit_perm (b : Board) (u : List (Nat × Nat)) (hnd : u.Nodup)
    (hlen : u.length = 9) (hmem : ∀ p ∈ u, p ∈ rowMajor)
    (hunit : ∀ p ∈ u, ∀ q ∈ u, sameUnit p q) (hcons : consistent b)
    (hok : cellsOk b) (hfull : fullB b) :
    List.Perm digits (u.map (fun p => getCell b p.1 p.2)) := by
  apply perm_digits_of_nodup_sub
  · rw [List.length_map, hlen]
  · refine List.Nodup.map_on ?_ hnd
    intro x hx y hy hfxy
    by_contra hne
    have h1 := (mem_rowMajor_pair x).1 (hmem x hx)
    exact hcons x (hmem x hx) y (hmem y hy) hne (hunit x hx y hy)
      (hfull x.1 h1.1 x.2 h1.2) hfxy
  · intro v hv
    obtain ⟨p, hp, rfl⟩ := List.mem_map.1 hv
    have h1 := (mem_rowMajor_pair p).1 (hmem p hp)
    rcases hok p.1 h1.1 p.2 h1.2 with h | h
    · exact absurd h (hfull p.1 h1.1 p.2 h1.2)
    · exact h

theorem solved_of_full (b : Board) (hcons : consistent b) (hok : cellsOk b)
    (hfull : fullB b) : solvedBoard b := by
  intro d hd
  refine ⟨?_, ?_, ?_⟩
  · intro r hr
    obtain ⟨hnd, hlen, hmem, hunit⟩ := rowCells_facts r hr
    rw [rowHasOnce_iff]
    exact count_of_perm_digits _
      (unit_perm b _ hnd hlen hmem hunit hcons hok hfull) d hd
  · intro c hc
    obtain ⟨hnd, hlen, hmem, hunit⟩ := colCells_facts c hc
    rw [colHasOnce_iff]
    exact count_of_perm_digits _
      (unit_perm b _ hnd hlen hmem hunit hcons hok hfull) d hd
  · intro i hi j hj
    rw [boxHasOnce_iff]
    exact count_of_perm_digits _
      (unit_perm b _ (boxCells_nodup i hi j hj) (boxCells_length i hi j hj)
        (boxCells_mem i hi j hj) (boxCells_unit i hi j hj) hcons hok hfull) d hd

/-! ### Preservation of the search invariant -/

theorem conflict_of_sameUnit (b : Board) (r c : Nat) (d : String)
    (hv : is_valid b r c d = true) :
    ∀ q : Nat × Nat, q.1 < 9 → q.2 < 9 → sameUnit (r, c) q →
      getCell b q.1 q.2 ≠ d := by
  obtain ⟨hrc, hbox⟩ := (is_valid_iff b r c d).1 hv
  intro q h1 h2 hunit
  rcases hunit with he | he | he
  · simp only at he
    rw [← he]
    exact (hrc q.2 h2).1
  · simp only at he
    rw [← he]
    exact (hrc q.1 h1).2
  · apply hbox q
    rw [mem_boxScan]
    simp only at he
    omega

theorem consistent_place (b : Board) (r c : Nat) (d : String)
    (hwf : Board.wf b) (hcons : consistent b) (hr : r < 9) (hc : c < 9)
    (hv : is_valid b r c d = true) : consistent (setCell b r c d) := by
  intro p hp q hq hne hunit hpne
  have hbp := (mem_rowMajor_pair p).1 hp
  have hbq := (mem_rowMajor_pair q).1 hq
  by_cases hpo : p = (r, c)
  · subst hpo
    have hq' : ¬(q.1 = r ∧ q.2 = c) := by
      intro ⟨e1, e2⟩
      apply hne
      cases q
      simp_all
    rw [getCell_setCell_self b r c d hwf hr hc] at hpne ⊢
    rw [getCell_setCell_ne b r c q.1 q.2 d hq']
    exact fun heq =>
      conflict_of_sameUnit b r c d hv q hbq.1 hbq.2 hunit heq.symm
  · have hp' : ¬(p.1 = r ∧ p.2 = c) := by
      intro ⟨e1, e2⟩
      apply hpo
      cases p
      simp_all
    rw [getCell_setCell_ne b r c p.1 p.2 d hp'] at hpne ⊢
    by_cases hqo : q = (r, c)
    · subst hqo
      rw [getCell_setCell_self b r c d hwf hr hc]
      exact conflict_of_sameUnit b r c d hv p hbp.1 hbp.2 (sameUnit_symm hunit)
    · rw [getCell_setCell_ne b r c q.1 q.2 d
        (by intro ⟨e1, e2⟩; apply hqo; cases q; simp_all)]
      exact hcons p hp q hq hne hunit hpne

theorem consistent_erase (b : Board) (r c : Nat) (hwf : Board.wf b)
    (hr : r < 9) (hc : c < 9) (hcons : consistent b) :
    consistent (setCell b r c "") := by
  intro p hp q hq hne hunit hpne
  by_cases hpo : p = (r, c)
  · subst hpo
    rw [getCell_setCell_self b r c "" hwf hr hc] at hpne
    exact absurd rfl hpne
  · have hp' : ¬(p.1 = r ∧ p.2 = c) := by
      intro ⟨e1, e2⟩
      apply hpo
      cases p
      simp_all
    rw [getCell_setCell_ne b r c p.1 p.2 "" hp'] at hpne ⊢
    by_cases hqo : q = (r, c)
    · subst hqo
      rw [getCell_setCell_self b r c "" hwf hr hc]
      exact hpne
    · rw [getCell_setCell_ne b r c q.1 q.2 ""
        (by intro ⟨e1, e2⟩; apply hqo; cases q; simp_all)]
      exact hcons p hp q hq hne hunit hpne

theorem cellsOk_setCell (b : Board) (r c : Nat) (d : String)
    (hwf : Board.wf b) (hr : r < 9) (hc : c < 9) (hok : cellsOk b)
    (hd : d = "" ∨ d ∈ digits) : cellsOk (setCell b r c d) := by
  intro x hx y hy
  by_cases h : x = r ∧ y = c
  · obtain ⟨rfl, rfl⟩ := h
    rw [getCell_setCell_self b x y d hwf hx hy]
    exact hd
  · rw [getCell_setCell_ne b r c x y d h]
    exact hok x hx y hy

/-! ### Soundness of the search -/

theorem solveF_sound : ∀ n b, Board.wf b → consistent b → cellsOk b →
    (solveF n b).1 = true →
    Board.wf (solveF n b).2 ∧ consistent (solveF n b).2 ∧
    cellsOk (solveF n b).2 ∧ fullB (solveF n b).2 := by
  intro n
  induction n with
  | zero =>
    intro b _ _ _ h
    simp [solveF] at h
  | succ n ih =>
    intro b hwf hcons hok
    cases hfe : find_empty b with
    | none =>
      simp only [solveF, hfe]
      intro _
      exact ⟨hwf, hcons, hok, (find_empty_none_iff b).1 hfe⟩
    | some rc =>
      obtain ⟨r, c⟩ := rc
      simp only [solveF, hfe]
      obtain ⟨hr, hc, hempty⟩ := find_empty_some b r c hfe
      have inner : ∀ ds, (∀ x ∈ ds, x ∈ digits) →
          (tryDigits (solveF n) b r c ds).1 = true →
          Board.wf (tryDigits (solveF n) b r c ds).2 ∧
          consistent (tryDigits (solveF n) b r c ds).2 ∧
          cellsOk (tryDigits (solveF n) b r c ds).2 ∧
          fullB (tryDigits (solveF n) b r c ds).2 := by
        intro ds
        induction ds with
        | nil =>
          intro _ h
          simp [tryDigits] at h
        | cons d ds ihds =>
          intro hsub
          simp only [tryDigits]
          by_cases hv : is_valid b r c d = true
          · rw [if_pos hv]
            by_cases hp : (solveF n (setCell b r c d)).1 = true
            · rw [if_pos hp]
              intro _
              exact ih (setCell b r c d) (wf_setCell b r c d hwf)
                (consistent_place b r c d hwf hcons hr hc hv)
                (cellsOk_setCell b r c d hwf hr hc hok
                  (Or.inr (hsub d (List.mem_cons_self d ds)))) hp
            · rw [if_neg hp]
              rw [solveF_false_board n _ (Bool.eq_false_iff.2 hp),
                setCell_setCell, setCell_restore b r c hempty]
              exact ihds (fun x hx => hsub x (List.mem_cons_of_mem d hx))
          · rw [if_neg hv]
            exact ihds (fun x hx => hsub x (List.mem_cons_of_mem d hx))
      exact inner digits (fun x hx => hx)

/-! ### Completeness of the search -/

theorem cellsOk_of_extends (b F : Board) (hext : extendsB b F)
    (hs : solvedBoard F) : cellsOk b := by
  intro r hr c hc
  by_cases h : getCell b r c = ""
  · exact Or.inl h
  · right
    rw [← hext r hr c hc h]
    exact solvedBoard_cell_mem F hs r c hr hc

theorem consistent_of_extends (b F : Board) (hext : extendsB b F)
    (hs : solvedBoard F) : consistent b := by
  intro p hp q hq hne hunit hpne heq
  have hbp := (mem_rowMajor_pair p).1 hp
  have hbq := (mem_rowMajor_pair q).1 hq
  have hqne : getCell b q.1 q.2 ≠ "" := fun h => hpne (heq.trans h)
  have hFp := hext p.1 hbp.1 p.2 hbp.2 hpne
  have hFq := hext q.1 hbq.1 q.2 hbq.2 hqne
  -- the two equal cells would also collide in the solved board F
  have hd : getCell F p.1 p.2 ∈ digits := by
    rw [hFp]
    rcases cellsOk_of_extends b F hext hs p.1 hbp.1 p.2 hbp.2 with h | h
    · exact absurd h hpne
    · exact h
  have hFeq : getCell F p.1 p.2 = getCell F q.1 q.2 := by
    rw [hFp, hFq]
    exact heq
  rcases hunit with he | he | he
  · -- same row
    have h1 := (hs _ hd).1 p.1 hbp.1
    unfold rowHasOnce at h1
    have hpq2 : p.2 ≠ q.2 := by
      intro h2
      exact hne (Prod.ext he h2)
    have h2 := two_le_countP (fun c' => getCell F p.1 c' == getCell F p.1 p.2)
      (List.range 9) p.2 q.2 hpq2 (List.mem_range.2 hbp.2)
      (List.mem_range.2 hbq.2) (by simp) (by rw [he] at hFeq ⊢; simp [hFeq])
    omega
  · -- same column
    have h1 := (hs _ hd).2.1 p.2 hbp.2
    unfold colHasOnce at h1
    have hpq1 : p.1 ≠ q.1 := by
      intro h2
      exact hne (Prod.ext h2 he)
    have h2 := two_le_countP (fun r' => getCell F r' p.2 == getCell F p.1 p.2)
      (List.range 9) p.1 q.1 hpq1 (List.mem_range.2 hbp.1)
      (List.mem_range.2 hbq.1) (by simp) (by rw [he] at hFeq ⊢; simp [hFeq])
    omega
  · -- same box
    have h1 := (hs _ hd).2.2 (p.1 / 3) (by omega) (p.2 / 3) (by omega)
    unfold boxHasOnce at h1
    have hpmem : p ∈ boxCells (p.1 / 3) (p.2 / 3) := by
      rw [boxCells, mem_boxScan]
      omega
    have hqmem : q ∈ boxCells (p.1 / 3) (p.2 / 3) := by
      rw [boxCells, mem_boxScan]
      omega
    have h2 := two_le_countP (fun x => getCell F x.1 x.2 == getCell F p.1 p.2)
      (boxCells (p.1 / 3) (p.2 / 3)) p q hne hpmem hqmem (by simp)
      (by simp [hFeq])
    omega

theorem is_valid_of_solved (b F : Board) (r c : Nat) (hr : r < 9) (hc : c < 9)
    (hempty : getCell b r c = "") (hext : extendsB b F) (hs : solvedBoard F) :
    is_valid b r c (getCell F r c) = true := by
  have hdmem : getCell F r c ∈ digits := solvedBoard_cell_mem F hs r c hr hc
  have hdne : getCell F r c ≠ "" := digits_ne_empty _ hdmem
  rw [is_valid_iff]
  refine ⟨fun i hi => ⟨?_, ?_⟩, ?_⟩
  · intro heq
    have hic : i ≠ c := by
      intro h
      subst h
      rw [hempty] at heq
      exact hdne heq.symm
    have hFri : getCell F r i = getCell F r c := by
      rw [hext r hr i hi (by rw [heq]; exact hdne)]
      exact heq
    have h1 := (hs _ hdmem).1 r hr
    unfold rowHasOnce at h1
    have h2 := two_le_countP (fun c' => getCell F r c' == getCell F r c)
      (List.range 9) i c hic (List.mem_range.2 hi) (List.mem_range.2 hc)
      (by simp [hFri]) (by simp)
    omega
  · intro heq
    have hir : i ≠ r := by
      intro h
      subst h
      rw [hempty] at heq
      exact hdne heq.symm
    have hFic : getCell F i c = getCell F r c := by
      rw [hext i hi c hc (by rw [heq]; exact hdne)]
      exact heq
    have h1 := (hs _ hdmem).2.1 c hc
    unfold colHasOnce at h1
    have h2 := two_le_countP (fun r' => getCell F r' c == getCell F r c)
      (List.range 9) i r hir (List.mem_range.2 hi) (List.mem_range.2 hr)
      (by simp [hFic]) (by simp)
    omega
  · intro p hp heq
    rw [mem_boxScan] at hp
    have hp1 : p.1 < 9 := by omega
    have hp2 : p.2 < 9 := by omega
    have hpne : p ≠ (r, c) := by
      intro h
      rw [h] at heq
      simp only at heq
      rw [hempty] at heq
      exact hdne heq.symm
    have hFp : getCell F p.1 p.2 = getCell F r c := by
      rw [hext p.1 hp1 p.2 hp2 (by rw [heq]; exact hdne)]
      exact heq
    have h1 := (hs _ hdmem).2.2 (r / 3) (by omega) (c / 3) (by omega)
    unfold boxHasOnce at h1
    have hrcmem : (r, c) ∈ boxCells (r / 3) (c / 3) := by
      rw [boxCells, mem_boxScan]
      simp only
      omega
    have hpmem : p ∈ boxCells (r / 3) (c / 3) := by
      rw [boxCells, mem_boxScan]
      omega
    have h2 := two_le_countP (fun q => getCell F q.1 q.2 == getCell F r c)
      (boxCells (r / 3) (c / 3)) p (r, c) hpne hpmem hrcmem
      (by simp [hFp]) (by simp)
    omega

theorem solveF_complete : ∀ n b, Board.wf b → countEmpty b ≤ n →
    ∀ F, extendsB b F → solvedBoard F → (solveF (n + 1) b).1 = true := by
  intro n
  induction n with
  | zero =>
    intro b hwf hce F hext hs
    have h0 : find_empty b = none :=
      (countEmpty_zero_iff b).1 (Nat.le_zero.1 hce)
    simp [solveF, h0]
  | succ n ih =>
    intro b hwf hce F hext hs
    cases hfe : find_empty b with
    | none => simp [solveF, hfe]
    | some rc =>
      obtain ⟨r, c⟩ := rc
      simp only [solveF, hfe]
      obtain ⟨hr, hc, hempty⟩ := find_empty_some b r c hfe
      have hdmem : getCell F r c ∈ digits :=
        solvedBoard_cell_mem F hs r c hr hc
      have hdne := digits_ne_empty _ hdmem
      have hvstar : is_valid b r c (getCell F r c) = true :=
        is_valid_of_solved b F r c hr hc hempty hext hs
      have hstar : (solveF (n + 1) (setCell b r c (getCell F r c))).1 = true := by
        refine ih (setCell b r c (getCell F r c))
          (wf_setCell b r c _ hwf) ?_ F ?_ hs
        · have := countEmpty_setCell b r c (getCell F r c) hwf hr hc hempty hdne
          omega
        · intro x hx y hy hne
          by_cases hxy : x = r ∧ y = c
          · obtain ⟨rfl, rfl⟩ := hxy
            rw [getCell_setCell_self b x y _ hwf hx hy]
          · rw [getCell_setCell_ne b r c x y _ hxy] at hne ⊢
            exact hext x hx y hy hne
      have inner : ∀ ds, getCell F r c ∈ ds →
          (tryDigits (solveF (n + 1)) b r c ds).1 = true := by
        intro ds
        induction ds with
        | nil =>
          intro h
          cases h
        | cons d ds ihds =>
          intro hin
          simp only [tryDigits]
          by_cases hv : is_valid b r c d = true
          · rw [if_pos hv]
            by_cases hp : (solveF (n + 1) (setCell b r c d)).1 = true
            · rw [if_pos hp]
              exact hp
            · rw [if_neg hp]
              have hdne2 : d ≠ getCell F r c := by
                intro h
                subst h
                exact hp hstar
              have hin' : getCell F r c ∈ ds := by
                rcases List.mem_cons.1 hin with h | h
                · exact absurd h.symm hdne2
                · exact h
              rw [solveF_false_board _ _ (Bool.eq_false_iff.2 hp),
                setCell_setCell, setCell_restore b r c hempty]
              exact ihds hin'
          · rw [if_neg hv]
            have hdne2 : d ≠ getCell F r c := fun h => hv (h ▸ hvstar)
            have hin' : getCell F r c ∈ ds := by
              rcases List.mem_cons.1 hin with h | h
              · exact absurd h.symm hdne2
              · exact h
            exact ihds hin'
      exact inner digits hdmem

/-! ### The instrumented search agrees with the plain one -/

theorem tryDigitsT_fst (solveN : Board → (Bool × Board) × List Board)
    (solveB : Board → Bool × Board)
    (hfst : ∀ b', (solveN b').1 = solveB b') (r c : Nat) :
    ∀ ds b, (tryDigitsT solveN b r c ds).1 = tryDigits solveB b r c ds := by
  intro ds
  induction ds with
  | nil => intro b; rfl
  | cons d ds ihds =>
    intro b
    simp only [tryDigitsT, tryDigits]
    by_cases hv : is_valid b r c d = true
    · rw [if_pos hv, if_pos hv, hfst (setCell b r c d)]
      by_cases hp : (solveB (setCell b r c d)).1 = true
      · rw [if_pos hp, if_pos hp]
      · rw [if_neg hp, if_neg hp]
        exact ihds _
    · rw [if_neg hv, if_neg hv]
      exact ihds _

theorem solveT_fst : ∀ n b, (solveT n b).1 = solveF n b := by
  intro n
  induction n with
  | zero => intro b; rfl
  | succ n ih =>
    intro b
    cases hfe : find_empty b with
    | none => simp [solveT, solveF, hfe]
    | some rc =>
      obtain ⟨r, c⟩ := rc
      simp only [solveT, solveF, hfe]
      exact tryDigitsT_fst (solveT n) (solveF n) ih r c digits b

theorem solveT_trace : ∀ n b, Board.wf b → consistent b → cellsOk b →
    ∀ x ∈ (solveT n b).2, Board.wf x ∧ consistent x ∧ cellsOk x := by
  intro n
  induction n with
  | zero =>
    intro b _ _ _ x hx
    simp [solveT] at hx
  | succ n ih =>
    intro b hwf hcons hok
    cases hfe : find_empty b with
    | none =>
      intro x hx
      simp [solveT, hfe] at hx
    | some rc =>
      obtain ⟨r, c⟩ := rc
      simp only [solveT, hfe]
      obtain ⟨hr, hc, hempty⟩ := find_empty_some b r c hfe
      have inner : ∀ ds, (∀ y ∈ ds, y ∈ digits) →
          ∀ x ∈ (tryDigitsT (solveT n) b r c ds).2,
            Board.wf x ∧ consistent x ∧ cellsOk x := by
        intro ds
        induction ds with
        | nil =>
          intro _ x hx
          simp [tryDigitsT] at hx
        | cons d ds ihds =>
          intro hsub x hx
          simp only [tryDigitsT] at hx
          have hd : d ∈ digits := hsub d (List.mem_cons_self d ds)
          have hwf1 := wf_setCell b r c d hwf
          have hcons1 := consistent_place b r c d hwf hcons hr hc
          have hok1 := cellsOk_setCell b r c d hwf hr hc hok (Or.inr hd)
          by_cases hv : is_valid b r c d = true
          · rw [if_pos hv] at hx
            by_cases hp : (solveT n (setCell b r c d)).1.1 = true
            · rw [if_pos hp] at hx
              rcases List.mem_cons.1 hx with rfl | hx'
              · exact ⟨hwf1, hcons1 hv, hok1⟩
              · exact ih (setCell b r c d) hwf1 (hcons1 hv) hok1 x hx'
            · rw [if_neg hp] at hx
              have hproj := solveT_fst n (setCell b r c d)
              have hp' : (solveF n (setCell b r c d)).1 = false := by
                rw [← hproj]
                exact Bool.eq_false_iff.2 hp
              have hres : (solveT n (setCell b r c d)).1.2 = setCell b r c d := by
                rw [hproj]
                exact solveF_false_board n _ hp'
              rw [hres, setCell_setCell, setCell_restore b r c hempty] at hx
              rcases List.mem_cons.1 hx with rfl | hx'
              · exact ⟨hwf1, hcons1 hv, hok1⟩
              · rcases List.mem_append.1 hx' with h1 | h1
                · exact ih (setCell b r c d) hwf1 (hcons1 hv) hok1 x h1
                · rcases List.mem_cons.1 h1 with rfl | h2
                  · exact ⟨hwf, hcons, hok⟩
                  · exact ihds (fun y hy => hsub y (List.mem_cons_of_mem d hy))
                      x h2
          · rw [if_neg hv] at hx
            exact ihds (fun y hy => hsub y (List.mem_cons_of_mem d hy)) x hx
      exact inner digits (fun y hy => hy)

/-! ### The claims -/

/-- Claim C1: for every 9x9 board whose given digits are mutually consistent and
which has a valid completion, `solve_sudoku` returns true and the resulting
board satisfies: every row, every column, and every 3x3 box contains each
digit `"1"`-`"9"` exactly once, with all originally given digits in place. -/
theorem solve_correct (b : Board) (hwf : Board.wf b) (hcons : consistent b)
    (hex : ∃ F, extendsB b F ∧ solvedBoard F) :
    (solve_sudoku b).1 = true ∧ solvedBoard (solve_sudoku b).2 ∧
      extendsB b (solve_sudoku b).2 := by
  obtain ⟨F, hext, hs⟩ := hex
  have hok : cellsOk b := cellsOk_of_extends b F hext hs
  have htrue : (solve_sudoku b).1 = true :=
    solveF_complete (countEmpty b) b hwf (le_refl _) F hext hs
  have hsound := solveF_sound (countEmpty b + 1) b hwf hcons hok htrue
  exact ⟨htrue, solved_of_full _ hsound.2.1 hsound.2.2.1 hsound.2.2.2,
    solveF_extends (countEmpty b + 1) b⟩

/-- Witness for C1 at a concrete input: `okBoard88` (one empty cell) with the
completion `okBoard`. -/
theorem solve_correct_witness :
    (Board.wf okBoard88 ∧ consistent okBoard88 ∧
      (∃ F, extendsB okBoard88 F ∧ solvedBoard F)) ∧
    ((solve_sudoku okBoard88).1 = true ∧
      solvedBoard (solve_sudoku okBoard88).2 ∧
      extendsB okBoard88 (solve_sudoku okBoard88).2) :=
  ⟨⟨by decide, by decide, ⟨okBoard, by decide, by decide⟩⟩,
    solve_correct okBoard88 (by decide) (by decide)
      ⟨okBoard, by decide, by decide⟩⟩

/-- Claim C2 is false as stated: `swappedBoard` is a well-formed 9x9 board
with an empty cell and no valid completion (row 0 holds two given `"4"`s),
yet `solve_sudoku` returns true rather than false. -/
theorem solve_unsolvable_cex :
    Board.wf swappedBoard ∧
    (¬ ∃ F, extendsB swappedBoard F ∧ solvedBoard F) ∧
    (solve_sudoku swappedBoard).1 = true := by
  refine ⟨by decide, ?_, ?_⟩
  · rintro ⟨F, hext, hs⟩
    have h1 : getCell F 0 0 = "4" := by
      rw [hext 0 (by omega) 0 (by omega) (by decide)]
      decide
    have h2 : getCell F 0 3 = "4" := by
      rw [hext 0 (by omega) 3 (by omega) (by decide)]
      decide
    have h3 := (hs "4" (by decide)).1 0 (by omega)
    unfold rowHasOnce at h3
    have h4 := two_le_countP (fun c => getCell F 0 c == "4") (List.range 9)
      0 3 (by omega) (by decide) (by decide) (by simp [h1]) (by simp [h2])
    omega
  · decide

/-- Claim C2 (amended): for every 9x9 board whose filled cells all hold digits
`"1"`-`"9"` and are mutually consistent, if the board has no valid completion
then `solve_sudoku` returns false and the board is restored exactly to its
pre-call state.  (The consistency restriction is forced by the
counterexample: with inconsistent givens the solver can fill every cell and
return true.) -/
theorem solve_unsolvable (b : Board) (hwf : Board.wf b) (hok : cellsOk b)
    (hcons : consistent b)
    (hnone : ¬ ∃ F, extendsB b F ∧ solvedBoard F) :
    solve_sudoku b = (false, b) := by
  have hfalse : (solve_sudoku b).1 = false := by
    cases hb : (solve_sudoku b).1
    · rfl
    · exfalso
      have hsound := solveF_sound (countEmpty b + 1) b hwf hcons hok hb
      exact hnone ⟨(solve_sudoku b).2, solveF_extends (countEmpty b + 1) b,
        solved_of_full _ hsound.2.1 hsound.2.2.1 hsound.2.2.2⟩
  exact Prod.ext hfalse (solveF_false_board (countEmpty b + 1) b hfalse)

/-- Witness for the amended C2 at a concrete input: `blockedBoard` has
consistent digit givens and no valid completion, and the solver fails,
leaving the board unchanged. -/
theorem solve_unsolvable_witness :
    (Board.wf blockedBoard ∧ cellsOk blockedBoard ∧ consistent blockedBoard ∧
      ¬ (∃ F, extendsB blockedBoard F ∧ solvedBoard F)) ∧
    solve_sudoku blockedBoard = (false, blockedBoard) := by
  have hno : ¬ ∃ F, extendsB blockedBoard F ∧ solvedBoard F := by
    rintro ⟨F, hext, hs⟩
    have h9 : getCell F 0 8 = "9" := by
      have h1 := (hs "9" (by decide)).1 0 (by omega)
      unfold rowHasOnce at h1
      have h2 : ∃ cc ∈ List.range 9, (getCell F 0 cc == "9") = true :=
        List.countP_pos_iff.1 (by omega)
      obtain ⟨cc, hcc, hc9⟩ := h2
      simp only [beq_iff_eq] at hc9
      have hcc9 : cc < 9 := List.mem_range.1 hcc
      interval_cases cc
      all_goals first
        | exact hc9
        | exact absurd
            ((hext 0 (by omega) _ (by omega) (by decide)).symm.trans hc9)
            (by decide)
    have h18 : getCell F 1 8 = "9" := by
      rw [hext 1 (by omega) 8 (by omega) (by decide)]
      decide
    have hcol := (hs "9" (by decide)).2.1 8 (by omega)
    unfold colHasOnce at hcol
    have h2 := two_le_countP (fun r => getCell F r 8 == "9") (List.range 9)
      0 1 (by omega) (by decide) (by decide) (by simp [h9]) (by simp [h18])
    omega
  exact ⟨⟨by decide, by decide, by decide, hno⟩,
    solve_unsolvable blockedBoard (by decide) (by decide) (by decide) hno⟩

/-- Claim C3 is false as stated: on the well-formed board `selfBoard` the
cell `(0, 0)` itself holds `"1"` and no other cell does, so the claimed
characterisation `specValid` holds while `is_valid` returns false — the
code's row scan includes the cell `(row, col)` itself. -/
theorem is_valid_self_cex :
    Board.wf selfBoard ∧ ("1" : String) ∈ digits ∧
    ¬ (is_valid selfBoard 0 0 "1" = true ↔ specValid selfBoard 0 0 "1") := by
  refine ⟨by decide, by decide, by decide⟩

/-- Claim C3 (amended): for every board, row and column in `[0, 8]`, and digit
`"1"`-`"9"`, if the cell `(row, col)` is currently empty then
`is_valid` returns true iff no cell other than `(row, col)` in the same row,
column, or 3x3 box with origin `(row // 3 * 3, col // 3 * 3)` holds the
digit.  (The emptiness restriction is forced by the counterexample: the scan
includes the cell itself.) -/
theorem is_valid_spec (b : Board) (row col : Nat) (digit : String)
    (hrow : row < 9) (hcol : col < 9) (hd : digit ∈ digits)
    (hempty : getCell b row col = "") :
    is_valid b row col digit = true ↔ specValid b row col digit := by
  have hdne : digit ≠ "" := digits_ne_empty digit hd
  rw [is_valid_iff]
  unfold specValid
  constructor
  · rintro ⟨hrc, hbox⟩
    refine ⟨fun i hi _ => (hrc i hi).1, fun i hi _ => (hrc i hi).2, ?_⟩
    intro i hi j hj h
    exact hbox (i, j)
      (by rw [mem_boxScan]; exact ⟨h.1, h.2.1, h.2.2.1, h.2.2.2.1⟩)
  · rintro ⟨hr, hc, hbox⟩
    constructor
    · intro i hi
      constructor
      · by_cases hic : i = col
        · subst hic
          rw [hempty]
          exact fun h => hdne h.symm
        · exact hr i hi (by simp [hic])
      · by_cases hir : i = row
        · subst hir
          rw [hempty]
          exact fun h => hdne h.symm
        · exact hc i hi (by simp [hir])
    · intro p hp
      rw [mem_boxScan] at hp
      by_cases hprc : p = (row, col)
      · rw [hprc]
        simp only
        rw [hempty]
        exact fun h => hdne h.symm
      · have hp1 : p.1 < 9 := by omega
        have hp2 : p.2 < 9 := by omega
        refine hbox p.1 hp1 p.2 hp2
          ⟨hp.1, hp.2.1, hp.2.2.1, hp.2.2.2, ?_⟩
        cases p
        simpa using hprc

/-- Witness for the amended C3 at a concrete input: placing `"8"` in the one
empty cell of `okBoard88`. -/
theorem is_valid_spec_witness :
    (8 < 9 ∧ ("8" : String) ∈ digits ∧ getCell okBoard88 8 8 = "") ∧
      (is_valid okBoard88 8 8 "8" = true ↔ specValid okBoard88 8 8 "8") :=
  ⟨⟨by decide, by decide, by decide⟩,
    is_valid_spec okBoard88 8 8 "8" (by decide) (by decide) (by decide)
      (by decide)⟩

/-- Claim C4: the search terminates on every 9x9 board — any fuel of at least
`countEmpty b` recursion levels below the root reproduces `solve_sudoku b`,
and `countEmpty b ≤ 81`, so the recursion depth is bounded by the number of
cells; moreover every recursive call (placing a candidate digit into the
empty cell chosen by `find_empty`) strictly decreases the number of empty
cells. -/
theorem solve_terminates (b : Board) (hwf : Board.wf b) :
    (∀ n, countEmpty b ≤ n → solveF (n + 1) b = solve_sudoku b) ∧
    countEmpty b ≤ 81 ∧
    (∀ r c, find_empty b = some (r, c) → ∀ d ∈ digits,
      countEmpty (setCell b r c d) < countEmpty b) := by
  refine ⟨?_, countEmpty_le b, ?_⟩
  · intro n hn
    exact solveF_congr (countEmpty b) b hwf rfl n (countEmpty b) hn (le_refl _)
  · intro r c hfe d hd
    obtain ⟨hr, hc, hempty⟩ := find_empty_some b r c hfe
    have := countEmpty_setCell b r c d hwf hr hc hempty (digits_ne_empty d hd)
    omega

/-- Witness for C4 at a concrete input, including the instantiation at the
maximal fuel 81 (the number of cells). -/
theorem solve_terminates_witness :
    Board.wf okBoard88 ∧
    ((∀ n, countEmpty okBoard88 ≤ n →
        solveF (n + 1) okBoard88 = solve_sudoku okBoard88) ∧
      countEmpty okBoard88 ≤ 81 ∧
      (∀ r c, find_empty okBoard88 = some (r, c) → ∀ d ∈ digits,
        countEmpty (setCell okBoard88 r c d) < countEmpty okBoard88)) ∧
    solveF 82 okBoard88 = solve_sudoku okBoard88 :=
  ⟨by decide, solve_terminates okBoard88 (by decide),
    (solve_terminates okBoard88 (by decide)).1 81 (by decide)⟩

/-- Claim C5: if the input board is well formed, its filled cells are consistent
and every cell is a digit or the empty marker, then every intermediate board
state reached during the search (as recorded by the instrumented search
`solveT`, whose result component coincides with `solve_sudoku`) is again
consistent, and each of its cells holds a digit `"1"`-`"9"` or the empty
marker. -/
theorem solve_invariant (b : Board) (hwf : Board.wf b) (hcons : consistent b)
    (hok : cellsOk b) :
    (solveT (countEmpty b + 1) b).1 = solve_sudoku b ∧
    ∀ x ∈ (solveT (countEmpty b + 1) b).2,
      consistent x ∧ ∀ r, r < 9 → ∀ c, c < 9 →
        getCell x r c = "" ∨ getCell x r c ∈ digits := by
  refine ⟨solveT_fst _ b, ?_⟩
  intro x hx
  have h := solveT_trace (countEmpty b + 1) b hwf hcons hok x hx
  exact ⟨h.2.1, h.2.2⟩

/-- Witness for C5 at a concrete input. -/
theorem solve_invariant_witness :
    (Board.wf okBoard88 ∧ consistent okBoard88 ∧ cellsOk okBoard88) ∧
    ((solveT (countEmpty okBoard88 + 1) okBoard88).1
        = solve_sudoku okBoard88 ∧
      ∀ x ∈ (solveT (countEmpty okBoard88 + 1) okBoard88).2,
        consistent x ∧ ∀ r, r < 9 → ∀ c, c < 9 →
          getCell x r c = "" ∨ getCell x r c ∈ digits) :=
  ⟨⟨by decide, by decide, by decide⟩,
    solve_invariant okBoard88 (by decide) (by decide) (by decide)⟩

/-- Claim C6: `find_empty` returns the first empty cell in row-major order, and
returns `none` exactly when no cell is empty. -/
theorem find_empty_spec (b : Board) (_hwf : Board.wf b) :
    (find_empty b = none ↔ ∀ r, r < 9 → ∀ c, c < 9 → getCell b r c ≠ "") ∧
    (∀ r c, find_empty b = some (r, c) →
      r < 9 ∧ c < 9 ∧ getCell b r c = "" ∧
      ∀ x y, x < 9 → y < 9 → (x < r ∨ (x = r ∧ y < c)) →
        getCell b x y ≠ "") := by
  refine ⟨find_empty_none_iff b, ?_⟩
  intro r c hfe
  obtain ⟨hr, hc, he⟩ := find_empty_some b r c hfe
  exact ⟨hr, hc, he, find_empty_first b r c hfe⟩

/-- Witness for C6 at concrete inputs: the partial board `okBoard88` (first
empty cell `(8, 8)`) and the full board `okBoard` (no empty cell). -/
theorem find_empty_spec_witness :
    Board.wf okBoard88 ∧ find_empty okBoard88 = some (8, 8) ∧
    (8 < 9 ∧ 8 < 9 ∧ getCell okBoard88 8 8 = "" ∧
      ∀ x y, x < 9 → y < 9 → (x < 8 ∨ (x = 8 ∧ y < 8)) →
        getCell okBoard88 x y ≠ "") ∧
    (find_empty okBoard = none ↔
      ∀ r, r < 9 → ∀ c, c < 9 → getCell okBoard r c ≠ "") :=
  ⟨by decide, by decide,
    (find_empty_spec okBoard88 (by decide)).2 8 8 (by decide),
    (find_empty_spec okBoard (by decide)).1⟩

/-- Claim C7: on a fully and validly filled board, `solve_sudoku` returns true with
zero mutation, and a second call on the result again returns true with no
further mutation (idempotence). -/
theorem solve_solved_id (b : Board) (_hwf : Board.wf b) (hs : solvedBoard b) :
    solve_sudoku b = (true, b) ∧
      solve_sudoku (solve_sudoku b).2 = (true, (solve_sudoku b).2) := by
  have hfull : fullB b := fun r hr c hc =>
    digits_ne_empty _ (solvedBoard_cell_mem b hs r c hr hc)
  have hfe : find_empty b = none := (find_empty_none_iff b).2 hfull
  have h0 : countEmpty b = 0 := (countEmpty_zero_iff b).2 hfe
  have h1 : solve_sudoku b = (true, b) := by
    unfold solve_sudoku
    rw [h0]
    simp [solveF, hfe]
  refine ⟨h1, ?_⟩
  rw [h1]
  exact h1

/-- Witness for C7 at a concrete input: the solved board `okBoard`. -/
theorem solve_solved_id_witness :
    (Board.wf okBoard ∧ solvedBoard okBoard) ∧
    (solve_sudoku okBoard = (true, okBoard) ∧
      solve_sudoku (solve_sudoku okBoard).2
        = (true, (solve_sudoku okBoard).2)) :=
  ⟨⟨by decide, by decide⟩, solve_solved_id okBoard (by decide) (by decide)⟩

/-- Claim C8: `is_valid` is side-effect-free — in the state-passing embedding
`is_validS`, the board returned by the call is the board passed in, for
every board, row, column and digit. -/
theorem is_valid_no_write (b : Board) (row col : Nat) (d : String) :
    (is_validS b row col d).2 = b := by
  simp only [is_validS]
  split
  · rw [checkBox_board, checkRowCol_board]
  · rw [checkRowCol_board]

/-- Claim C9: on any board with no empty cell, `solve_sudoku` returns true without
mutating the board, even when the filled board violates the Sudoku
constraints — the solver never checks already-filled cells. -/
theorem solve_full_no_check (b : Board)
    (hfull : ∀ r, r < 9 → ∀ c, c < 9 → getCell b r c ≠ "") :
    solve_sudoku b = (true, b) := by
  have hfe : find_empty b = none := (find_empty_none_iff b).2 hfull
  have h0 : countEmpty b = 0 := (countEmpty_zero_iff b).2 hfe
  unfold solve_sudoku
  rw [h0]
  simp [solveF, hfe]

/-- Witness for C9 at a concrete input: the all-`"1"` board, which is full
but violates every uniqueness constraint. -/
theorem solve_full_no_check_witness :
    ((∀ r, r < 9 → ∀ c, c < 9 → getCell allOnes r c ≠ "") ∧
      ¬ consistent allOnes) ∧
    solve_sudoku allOnes = (true, allOnes) :=
  ⟨⟨by decide, by decide⟩, solve_full_no_check allOnes (by decide)⟩

/-- Claim C10: every cell that is filled when `solve_sudoku` is called holds the
same value when the call returns, whether the search succeeds or fails. -/
theorem solve_preserves_givens (b : Board) (_hwf : Board.wf b) :
    ∀ r, r < 9 → ∀ c, c < 9 → getCell b r c ≠ "" →
      getCell (solve_sudoku b).2 r c = getCell b r c :=
  fun r hr c hc hne => solveF_extends (countEmpty b + 1) b r hr c hc hne

/-- Witness for C10 at a concrete input. -/
theorem solve_preserves_givens_witness :
    (Board.wf okBoard88 ∧ getCell okBoard88 0 0 ≠ "") ∧
    getCell (solve_sudoku okBoard88).2 0 0 = getCell okBoard88 0 0 :=
  ⟨⟨by decide, by decide⟩,
    solve_preserves_givens okBoard88 (by decide) 0 (by decide) 0 (by decide)
      (by decide)⟩

end SudokuSolver
